import Mathlib

/-!
Verification of the DoctorClaw action proposal/approval/execution subsystem.

The development shallowly embeds the JavaScript sources (terminal.mjs and the
server code shipped inside install.bat): pure string/regex manipulation becomes
executable functions over `List Char`, the file system and backup store become
association lists threaded through an explicit state, and the external process
runner becomes an oracle parameter.  All definitions are executable so that
concrete witnesses evaluate by `decide`.
-/

namespace DoctorClaw

-- ── Character helpers ────────────────────────────────────────────────────────

/-- The JavaScript whitespace class: the characters matched by `\s` in a JS
regular expression, which is also the set removed by `String.prototype.trim`. -/
def isJsSpace (c : Char) : Bool :=
  let n := c.toNat
  n == 9 || n == 10 || n == 11 || n == 12 || n == 13 || n == 32 ||
  n == 0xa0 || n == 0x1680 || (0x2000 ≤ n && n ≤ 0x200a) ||
  n == 0x2028 || n == 0x2029 || n == 0x202f || n == 0x205f ||
  n == 0x3000 || n == 0xfeff

/-- The JS regex `.` (no `s` flag): any character except a line terminator. -/
def isDotC (c : Char) : Bool :=
  let n := c.toNat
  !(n == 10 || n == 13 || n == 0x2028 || n == 0x2029)

/-- ASCII lower-casing, the case folding relevant to the `i` flag on the
ASCII-only patterns in the blocklist. -/
def asciiLower (c : Char) : Char :=
  if 65 ≤ c.toNat && c.toNat ≤ 90 then Char.ofNat (c.toNat + 32) else c

/-- Case-insensitive character comparison against a pattern character. -/
def iEqC (pc c : Char) : Bool := asciiLower c == asciiLower pc

/-- JS word character, for the `\b` assertion: `[A-Za-z0-9_]`. -/
def isWordC (c : Char) : Bool :=
  let n := c.toNat
  (65 ≤ n && n ≤ 90) || (97 ≤ n && n ≤ 122) || (48 ≤ n && n ≤ 57) || n == 95

/-- Boolean list prefix test (JS `String.prototype.startsWith`). -/
def pfxB : List Char → List Char → Bool
  | [], _ => true
  | _ :: _, [] => false
  | a :: p, b :: s => a == b && pfxB p s

/-- Does `pat` occur as a contiguous substring of `s`? -/
def occursB (pat : List Char) : List Char → Bool
  | [] => pfxB pat []
  | c :: r => pfxB pat (c :: r) || occursB pat r

/-- JS `trimEnd`: drop trailing JS whitespace. -/
def jsTrimEnd (s : List Char) : List Char :=
  (s.reverse.dropWhile isJsSpace).reverse

/-- JS `trimStart`: drop leading JS whitespace. -/
def jsTrimStart (s : List Char) : List Char := s.dropWhile isJsSpace

/-- JS `trim`. -/
def jsTrim (s : List Char) : List Char := jsTrimEnd (jsTrimStart s)

-- ── A small matcher engine for the blocklist regexes ─────────────────────────

/-- A matcher continuation: receives the previously consumed character (for the
`\b` assertion) and the remaining input. -/
abbrev Cont := Option Char → List Char → Bool

/-- A matcher fragment transforms the continuation for the rest of the
pattern; existence of any successful parse is what `RegExp.test` decides. -/
abbrev Mat := Cont → Cont

/-- Match one character satisfying `p`. -/
def chM (p : Char → Bool) : Mat := fun k _ s =>
  match s with
  | [] => false
  | d :: r => p d && k (some d) r

/-- Kleene star over a single-character class (all stars in the blocklist are
of this shape), trying every split as a backtracking engine would. -/
def starGo (p : Char → Bool) (k : Cont) : Option Char → List Char → Bool
  | prev, [] => k prev []
  | prev, d :: r => k prev (d :: r) || (p d && starGo p k (some d) r)

/-- Star fragment. -/
def starM (p : Char → Bool) : Mat := fun k => starGo p k

/-- Plus fragment (`+` over a character class). -/
def plusM (p : Char → Bool) : Mat := fun k => chM p (starM p k)

/-- Optional fragment. -/
def optM (m : Mat) : Mat := fun k prev s => m k prev s || k prev s

/-- Sequence a list of fragments. -/
def sqM (ms : List Mat) : Mat := fun k => ms.foldr (fun m acc => m acc) k

/-- Alternation over a list of fragments. -/
def altsM (ms : List Mat) : Mat := fun k prev s => ms.any (fun m => m k prev s)

/-- The `\b` word-boundary assertion (zero-width). -/
def wordBdy : Mat := fun k prev s =>
  let pw := match prev with | some c => isWordC c | none => false
  let nw := match s with | d :: _ => isWordC d | [] => false
  (pw != nw) && k prev s

/-- Case-insensitive literal. -/
def litI (t : String) : Mat := sqM (t.data.map (fun c => chM (iEqC c)))

/-- Case-sensitive literal. -/
def litE (t : String) : Mat := sqM (t.data.map (fun c => chM (fun d => d == c)))

/-- Accepting continuation. -/
def contAccept : Cont := fun _ _ => true

/-- Search for a match starting at any position (unanchored `RegExp.test`). -/
def searchK (k : Cont) : Option Char → List Char → Bool
  | prev, [] => k prev []
  | prev, c :: r => k prev (c :: r) || searchK k (some c) r

/-- `RegExp.test` for a matcher fragment. -/
def reTest (m : Mat) (s : String) : Bool := searchK (m contAccept) none s.data

-- ── BLOCKED_COMMANDS (install.bat, server `// ── Safety ──` section) ─────────

-- rm\s+(-[a-zA-Z]*f|-[a-zA-Z]*r|--force|--recursive).*\/   (i)
def bp01 : Mat := sqM [litI "rm", plusM isJsSpace,
  altsM [sqM [chM (· == '-'), starM (fun c => (65 ≤ c.toNat && c.toNat ≤ 90) || (97 ≤ c.toNat && c.toNat ≤ 122)), chM (iEqC 'f')],
         sqM [chM (· == '-'), starM (fun c => (65 ≤ c.toNat && c.toNat ≤ 90) || (97 ≤ c.toNat && c.toNat ≤ 122)), chM (iEqC 'r')],
         litI "--force", litI "--recursive"],
  starM isDotC, chM (· == '/')]

-- rm\s+-rf\s   (i)
def bp02 : Mat := sqM [litI "rm", plusM isJsSpace, litI "-rf", chM isJsSpace]

-- mkfs   (i)
def bp03 : Mat := litI "mkfs"

-- dd\s+if=   (i)
def bp04 : Mat := sqM [litI "dd", plusM isJsSpace, litI "if="]

-- chmod\s+(-R\s+)?777\s+\/   (i)
def bp05 : Mat := sqM [litI "chmod", plusM isJsSpace,
  optM (sqM [litI "-R", plusM isJsSpace]), litI "777", plusM isJsSpace, chM (· == '/')]

-- chown\s+-R\s+.*\s+\/   (i)
def bp06 : Mat := sqM [litI "chown", plusM isJsSpace, litI "-R", plusM isJsSpace,
  starM isDotC, plusM isJsSpace, chM (· == '/')]

-- >\s*\/dev\/sd   (i)
def bp07 : Mat := sqM [chM (· == '>'), starM isJsSpace, litI "/dev/sd"]

-- :(){ :\|:& };:   (case-sensitive; the empty group matches the empty string,
-- so the pattern is the literal string ":\x7b :|:& \x7d;:")
def bp08 : Mat := litE ":\x7b :|:& \x7d;:"

-- shutdown   (i)
def bp09 : Mat := litI "shutdown"

-- reboot   (i)
def bp10 : Mat := litI "reboot"

-- init\s+[06]   (i)
def bp11 : Mat := sqM [litI "init", plusM isJsSpace, chM (fun c => c == '0' || c == '6')]

-- systemctl\s+(poweroff|halt|reboot)   (i)
def bp12 : Mat := sqM [litI "systemctl", plusM isJsSpace,
  altsM [litI "poweroff", litI "halt", litI "reboot"]]

-- wipefs   (i)
def bp13 : Mat := litI "wipefs"

-- fdisk   (i)
def bp14 : Mat := litI "fdisk"

-- parted   (i)
def bp15 : Mat := litI "parted"

-- \bformat\b.*\/(dev|disk)   (i)
def bp16 : Mat := sqM [wordBdy, litI "format", wordBdy, starM isDotC,
  chM (· == '/'), altsM [litI "dev", litI "disk"]]

-- curl.*\|\s*(bash|sh|zsh)   (i)
def bp17 : Mat := sqM [litI "curl", starM isDotC, chM (· == '|'), starM isJsSpace,
  altsM [litI "bash", litI "sh", litI "zsh"]]

-- wget.*\|\s*(bash|sh|zsh)   (i)
def bp18 : Mat := sqM [litI "wget", starM isDotC, chM (· == '|'), starM isJsSpace,
  altsM [litI "bash", litI "sh", litI "zsh"]]

-- python.*-c.*import\s+os.*system   (i)
def bp19 : Mat := sqM [litI "python", starM isDotC, litI "-c", starM isDotC,
  litI "import", plusM isJsSpace, litI "os", starM isDotC, litI "system"]

-- iptables\s+-F   (i)
def bp20 : Mat := sqM [litI "iptables", plusM isJsSpace, litI "-F"]

-- ufw\s+disable   (i)
def bp21 : Mat := sqM [litI "ufw", plusM isJsSpace, litI "disable"]

-- passwd\s+root   (i)
def bp22 : Mat := sqM [litI "passwd", plusM isJsSpace, litI "root"]

-- userdel   (i)
def bp23 : Mat := litI "userdel"

-- groupdel   (i)
def bp24 : Mat := litI "groupdel"

-- mv\s+\/etc   (i)
def bp25 : Mat := sqM [litI "mv", plusM isJsSpace, litI "/etc"]

-- rm\s+\/etc   (i)
def bp26 : Mat := sqM [litI "rm", plusM isJsSpace, litI "/etc"]

-- truncate.*\/etc   (i)
def bp27 : Mat := sqM [litI "truncate", starM isDotC, litI "/etc"]

-- echo\s+.*>\s*\/etc\/(passwd|shadow|sudoers|fstab)   (i)
def bp28 : Mat := sqM [litI "echo", plusM isJsSpace, starM isDotC, chM (· == '>'),
  starM isJsSpace, litI "/etc/", altsM [litI "passwd", litI "shadow", litI "sudoers", litI "fstab"]]

/-- The ordered blocklist `BLOCKED_COMMANDS`. -/
def BLOCKED_COMMANDS : List Mat :=
  [bp01, bp02, bp03, bp04, bp05, bp06, bp07, bp08, bp09, bp10,
   bp11, bp12, bp13, bp14, bp15, bp16, bp17, bp18, bp19, bp20,
   bp21, bp22, bp23, bp24, bp25, bp26, bp27, bp28]

/-- `isCommandBlocked`: some blocklist pattern tests true on the command. -/
def isCommandBlocked (cmd : String) : Bool :=
  BLOCKED_COMMANDS.any (fun m => reTest m cmd)

-- ── Path confinement (install.bat) ───────────────────────────────────────────

/-- JS `filepath.startsWith(p)`. -/
def startsWithB (s pre : String) : Bool := pfxB pre.data s.data

/-- `DEFAULT_READ_PATHS` from the server source. -/
def DEFAULT_READ_PATHS : List String :=
  ["/etc/", "/var/log/", "/var/lib/", "/tmp/",
   "/home/", "/opt/", "/usr/local/etc/",
   "/proc/cpuinfo", "/proc/meminfo", "/proc/loadavg",
   "/proc/version", "/proc/uptime", "/proc/net/"]

/-- `DEFAULT_WRITE_PATHS` from the server source. -/
def DEFAULT_WRITE_PATHS : List String := ["/tmp/"]

/-- `isPathReadable` over a configured list of allowed read path prefixes. -/
def isPathReadable (readPaths : List String) (filepath : String) : Bool :=
  readPaths.any (fun p => startsWithB filepath p)

/-- `isPathWritable` over a configured list of allowed write path prefixes. -/
def isPathWritable (writePaths : List String) (filepath : String) : Bool :=
  writePaths.any (fun p => startsWithB filepath p)

-- ── Action tag scanner (terminal.mjs, `// ── Action parsing ──` section) ─────

/-- The four action kinds of the markup grammar. -/
inductive ActKind where
  | READ_FILE
  | RUN_CMD
  | RUN_SCRIPT
  | WRITE_FILE
deriving DecidableEq, Repr

/-- The opener recognized for a kind: the text `[ACTION:<KIND>:`. -/
def openerStr : ActKind → String
  | .READ_FILE => "[ACTION:READ_FILE:"
  | .RUN_CMD => "[ACTION:RUN_CMD:"
  | .RUN_SCRIPT => "[ACTION:RUN_SCRIPT:"
  | .WRITE_FILE => "[ACTION:WRITE_FILE:"

/-- Opener as a character list. -/
def openerL (k : ActKind) : List Char := (openerStr k).data

/-- The terminator `[/ACTION]` of the terminator-delimited dialect. -/
def TERML : List Char := "[/ACTION]".data

/-- Does one of the four openers start here?  Tried in the alternation order
`READ_FILE|RUN_CMD|RUN_SCRIPT|WRITE_FILE` of the source regexes (the openers
are mutually non-prefix, so at most one can match). -/
def matchKindAt (s : List Char) : Option ActKind :=
  if pfxB (openerL .READ_FILE) s then some .READ_FILE
  else if pfxB (openerL .RUN_CMD) s then some .RUN_CMD
  else if pfxB (openerL .RUN_SCRIPT) s then some .RUN_SCRIPT
  else if pfxB (openerL .WRITE_FILE) s then some .WRITE_FILE
  else none

/-- Split at the first occurrence of `[/ACTION]` (at any position):
returns the text before it and the text after it. -/
def splitTerm0 : List Char → Option (List Char × List Char)
  | [] => none
  | c :: r =>
    if pfxB TERML (c :: r) then some ([], (c :: r).drop 9)
    else (splitTerm0 r).map (fun pq => (c :: pq.1, pq.2))

/-- Split at the first occurrence of `[/ACTION]` preceded by at least one
payload character — the lazy `([\s\S]+?)` of `ACT_RE_NEW`. -/
def splitTerm1 : List Char → Option (List Char × List Char)
  | [] => none
  | c :: r => (splitTerm0 r).map (fun pq => (c :: pq.1, pq.2))

/-- The `ACT_RE_NEW.exec` loop: leftmost matches of
`\[ACTION:(KIND):([\s\S]+?)\[/ACTION\]`, resuming after each match.  Fueled
structural recursion; the fuel is always instantiated to the input length,
which the step relation never exceeds. -/
def scanNewF : Nat → List Char → List (ActKind × List Char)
  | 0, _ => []
  | _ + 1, [] => []
  | fuel + 1, c :: r =>
    match matchKindAt (c :: r) with
    | some k =>
      match splitTerm1 ((c :: r).drop (openerL k).length) with
      | some (p, q) => (k, p) :: scanNewF fuel q
      | none => scanNewF fuel r
    | none => scanNewF fuel r

/-- All `ACT_RE_NEW` matches of a text, in order. -/
def scanNewL (s : List Char) : List (ActKind × List Char) := scanNewF s.length s

/-- `full.replace(ACT_RE_STRIP, '')`: the text with every terminator-dialect
match removed. -/
def stripNewF : Nat → List Char → List Char
  | 0, s => s
  | _ + 1, [] => []
  | fuel + 1, c :: r =>
    match matchKindAt (c :: r) with
    | some k =>
      match splitTerm1 ((c :: r).drop (openerL k).length) with
      | some (_, q) => stripNewF fuel q
      | none => c :: stripNewF fuel r
    | none => c :: stripNewF fuel r

/-- Remove all terminator-dialect matches. -/
def stripNewL (s : List Char) : List Char := stripNewF s.length s

/-- The `ACT_RE_OLD.exec` loop: leftmost matches of the legacy single-line
form `\[ACTION:(KIND):([^\]]+)\]`. -/
def scanOldF : Nat → List Char → List (ActKind × List Char)
  | 0, _ => []
  | _ + 1, [] => []
  | fuel + 1, c :: r =>
    match matchKindAt (c :: r) with
    | some k =>
      let after := (c :: r).drop (openerL k).length
      let p := after.takeWhile (fun d => d != ']')
      match after.dropWhile (fun d => d != ']') with
      | ']' :: rest2 =>
        if p.isEmpty then scanOldF fuel r else (k, p) :: scanOldF fuel rest2
      | _ => scanOldF fuel r
    | none => scanOldF fuel r

/-- All legacy-dialect matches of a text, in order. -/
def scanOldL (s : List Char) : List (ActKind × List Char) := scanOldF s.length s

/-- `text.replace(ACT_RE_STRIP_OLD, '')`: like the legacy match but with a
possibly-empty payload (`[^\]]*`). -/
def stripOldF : Nat → List Char → List Char
  | 0, s => s
  | _ + 1, [] => []
  | fuel + 1, c :: r =>
    match matchKindAt (c :: r) with
    | some k =>
      let after := (c :: r).drop (openerL k).length
      match after.dropWhile (fun d => d != ']') with
      | ']' :: rest2 => stripOldF fuel rest2
      | _ => c :: stripOldF fuel r
    | none => c :: stripOldF fuel r

/-- Remove all legacy-dialect (possibly empty payload) matches. -/
def stripOldL (s : List Char) : List Char := stripOldF s.length s

/-- `text.replace(ACT_RE_PARTIAL, '')`: cut the text at the first occurrence
of `[ACTION` (the partial-tag cleanup `\[ACTION[\s\S]*$`). -/
def stripPartialL : List Char → List Char
  | [] => []
  | c :: r => if pfxB "[ACTION".data (c :: r) then [] else c :: stripPartialL r

/-- Does `CLEAN_TAG` (`\[\/ACTION\s*$`) match starting here: the text
`[/ACTION` followed only by whitespace up to the end? -/
def cleanAt (s : List Char) : Bool :=
  pfxB "[/ACTION".data s && (s.drop 8).all isJsSpace

/-- `raw.replace(CLEAN_TAG, '')`: drop a trailing `[/ACTION` + whitespace. -/
def cleanTagL : List Char → List Char
  | [] => []
  | c :: r => if cleanAt (c :: r) then [] else c :: cleanTagL r

/-- An extracted action descriptor. -/
structure JsAction where
  type : ActKind
  target : List Char
  content : Option (List Char)
deriving DecidableEq, Repr

/-- The per-match payload processing shared by both extraction loops: clean a
trailing `[/ACTION`, trim the end, and for `WRITE_FILE`/`RUN_SCRIPT` split at
the first colon into target and content. -/
def parseRawPayload (k : ActKind) (m2 : List Char) : JsAction :=
  let raw := jsTrimEnd (cleanTagL m2)
  if k == .WRITE_FILE || k == .RUN_SCRIPT then
    match raw.dropWhile (fun d => d != ':') with
    | ':' :: rest => ⟨k, raw.takeWhile (fun d => d != ':'), some (jsTrimEnd (cleanTagL rest))⟩
    | _ => ⟨k, raw, none⟩
  else ⟨k, raw, none⟩

/-- `extractActions`: terminator-dialect matches over the whole text, then
legacy matches over the text with terminator-dialect matches removed. -/
def extractActionsL (full : List Char) : List JsAction :=
  (scanNewL full).map (fun kp => parseRawPayload kp.1 kp.2) ++
  (scanOldL (stripNewL full)).map (fun kp => parseRawPayload kp.1 kp.2)

/-- `extractActions` on a string. -/
def extractActions (full : String) : List JsAction := extractActionsL full.data

/-- `stripActions`: remove terminator-dialect matches, then legacy matches,
then a trailing partial tag, then trim. -/
def stripActionsL (text : List Char) : List Char :=
  jsTrim (stripPartialL (stripOldL (stripNewL text)))

/-- `stripActions` on a string. -/
def stripActions (text : String) : String := String.mk (stripActionsL text.data)

-- ── Prefix / occurrence lemmas ───────────────────────────────────────────────

theorem pfxB_trans : ∀ (a b c : List Char), pfxB a b = true → pfxB b c = true →
    pfxB a c = true := by
  intro a
  induction a with
  | nil => intro b c _ _; rfl
  | cons x p ih =>
    intro b c h1 h2
    cases b with
    | nil => simp [pfxB] at h1
    | cons y q =>
      cases c with
      | nil => simp [pfxB] at h2
      | cons z r =>
        simp only [pfxB, Bool.and_eq_true, beq_iff_eq] at h1 h2 ⊢
        exact ⟨h1.1.trans h2.1, ih q r h1.2 h2.2⟩

theorem noOcc_pfxB {pat s : List Char} (h : occursB pat s = false) :
    pfxB pat s = false := by
  cases s with
  | nil => exact h
  | cons c r =>
    simp only [occursB, Bool.or_eq_false_iff] at h
    exact h.1

theorem occursB_tail {pat : List Char} {c : Char} {r : List Char}
    (h : occursB pat (c :: r) = false) : occursB pat r = false := by
  simp only [occursB, Bool.or_eq_false_iff] at h
  exact h.2

theorem tagPfx_opener (k : ActKind) : pfxB "[ACTION".data (openerL k) = true := by
  cases k <;> decide

theorem pfxB_opener_false {s : List Char}
    (h : pfxB "[ACTION".data s = false) (k : ActKind) :
    pfxB (openerL k) s = false := by
  cases hp : pfxB (openerL k) s
  · rfl
  · have ht := pfxB_trans _ _ _ (tagPfx_opener k) hp
    rw [h] at ht
    exact ht.symm

theorem matchKindAt_eq_none {s : List Char}
    (h : pfxB "[ACTION".data s = false) : matchKindAt s = none := by
  simp [matchKindAt, pfxB_opener_false h]

theorem scanNewF_noOcc : ∀ (fuel : Nat) (s : List Char),
    occursB "[ACTION".data s = false → scanNewF fuel s = [] := by
  intro fuel
  induction fuel with
  | zero => intro s _; rfl
  | succ n ih =>
    intro s h
    cases s with
    | nil => rfl
    | cons c r =>
      have hm := matchKindAt_eq_none (noOcc_pfxB h)
      simp only [scanNewF, hm]
      exact ih r (occursB_tail h)

theorem stripNewF_noOcc : ∀ (fuel : Nat) (s : List Char),
    occursB "[ACTION".data s = false → stripNewF fuel s = s := by
  intro fuel
  induction fuel with
  | zero => intro s _; rfl
  | succ n ih =>
    intro s h
    cases s with
    | nil => rfl
    | cons c r =>
      have hm := matchKindAt_eq_none (noOcc_pfxB h)
      simp only [stripNewF, hm]
      rw [ih r (occursB_tail h)]

theorem scanOldF_noOcc : ∀ (fuel : Nat) (s : List Char),
    occursB "[ACTION".data s = false → scanOldF fuel s = [] := by
  intro fuel
  induction fuel with
  | zero => intro s _; rfl
  | succ n ih =>
    intro s h
    cases s with
    | nil => rfl
    | cons c r =>
      have hm := matchKindAt_eq_none (noOcc_pfxB h)
      simp only [scanOldF, hm]
      exact ih r (occursB_tail h)

theorem stripOldF_noOcc : ∀ (fuel : Nat) (s : List Char),
    occursB "[ACTION".data s = false → stripOldF fuel s = s := by
  intro fuel
  induction fuel with
  | zero => intro s _; rfl
  | succ n ih =>
    intro s h
    cases s with
    | nil => rfl
    | cons c r =>
      have hm := matchKindAt_eq_none (noOcc_pfxB h)
      simp only [stripOldF, hm]
      rw [ih r (occursB_tail h)]

theorem stripPartialL_noOcc : ∀ (s : List Char),
    occursB "[ACTION".data s = false → stripPartialL s = s := by
  intro s
  induction s with
  | nil => intro _; rfl
  | cons c r ih =>
    intro h
    simp only [stripPartialL, noOcc_pfxB h, Bool.false_eq_true, if_false]
    rw [ih (occursB_tail h)]

-- ── Well-formed tag lemmas ───────────────────────────────────────────────────

/-- Does a character occur in a list? -/
def hasChar (s : List Char) (x : Char) : Bool := s.any (fun c => c == x)

theorem hasChar_cons_false {c : Char} {r : List Char} {x : Char}
    (h : hasChar (c :: r) x = false) : c ≠ x ∧ hasChar r x = false := by
  simp only [hasChar, List.any_cons, Bool.or_eq_false_iff, beq_eq_false_iff_ne] at h
  exact ⟨h.1, h.2⟩

theorem pfxB_self_append : ∀ (a b : List Char), pfxB a (a ++ b) = true := by
  intro a b
  induction a with
  | nil => rfl
  | cons x p ih => simp [pfxB, ih]

theorem pfxB_append_or : ∀ (a b r : List Char), pfxB a (b ++ r) = true →
    pfxB a b = true ∨ pfxB b a = true := by
  intro a
  induction a with
  | nil => intro b r _; left; rfl
  | cons x p ih =>
    intro b r h
    cases b with
    | nil => right; rfl
    | cons y q =>
      simp only [List.cons_append, pfxB, Bool.and_eq_true, beq_iff_eq] at h ⊢
      rcases ih q r h.2 with h2 | h2
      · exact Or.inl ⟨h.1, h2⟩
      · exact Or.inr ⟨h.1.symm, h2⟩

theorem dropLen : ∀ (a b : List Char), (a ++ b).drop a.length = b := by
  intro a b
  induction a with
  | nil => rfl
  | cons x p ih =>
    simp only [List.cons_append, List.length_cons, List.drop_succ_cons]
    exact ih

theorem noBr_noTag : ∀ {s : List Char}, hasChar s '[' = false →
    occursB "[ACTION".data s = false := by
  intro s
  induction s with
  | nil => intro _; rfl
  | cons c r ih =>
    intro h
    obtain ⟨hc, hr⟩ := hasChar_cons_false h
    simp only [occursB, Bool.or_eq_false_iff]
    constructor
    · show pfxB ('[' :: "ACTION".data) (c :: r) = false
      simp [pfxB, Ne.symm hc]
    · exact ih hr

theorem opener_ne_nil (k : ActKind) (x : List Char) : openerL k ++ x ≠ [] := by
  cases k <;> exact fun h => List.noConfusion h

theorem opener_cons (k : ActKind) (x : List Char) :
    openerL k ++ x = '[' :: ((openerL k).tail ++ x) := by
  cases k <;> rfl

theorem opener_not_pfx : ∀ (k kp : ActKind), k ≠ kp → ∀ (rest : List Char),
    pfxB (openerL kp) (openerL k ++ rest) = false := by
  intro k kp hne rest
  cases hp : pfxB (openerL kp) (openerL k ++ rest)
  · rfl
  · exfalso
    rcases pfxB_append_or _ _ _ hp with h | h <;>
      (cases k <;> cases kp <;> (try exact hne rfl) <;> revert h <;> decide)

theorem matchKindAt_opener (k : ActKind) (rest : List Char) :
    matchKindAt (openerL k ++ rest) = some k := by
  have hself := pfxB_self_append (openerL k) rest
  cases k with
  | READ_FILE => simp [matchKindAt, hself]
  | RUN_CMD =>
    have h1 := opener_not_pfx .RUN_CMD .READ_FILE (by decide) rest
    simp [matchKindAt, h1, hself]
  | RUN_SCRIPT =>
    have h1 := opener_not_pfx .RUN_SCRIPT .READ_FILE (by decide) rest
    have h2 := opener_not_pfx .RUN_SCRIPT .RUN_CMD (by decide) rest
    simp [matchKindAt, h1, h2, hself]
  | WRITE_FILE =>
    have h1 := opener_not_pfx .WRITE_FILE .READ_FILE (by decide) rest
    have h2 := opener_not_pfx .WRITE_FILE .RUN_CMD (by decide) rest
    have h3 := opener_not_pfx .WRITE_FILE .RUN_SCRIPT (by decide) rest
    simp [matchKindAt, h1, h2, h3, hself]

theorem splitTerm0_none : ∀ (s : List Char), hasChar s '[' = false →
    splitTerm0 s = none := by
  intro s
  induction s with
  | nil => intro _; rfl
  | cons c r ih =>
    intro h
    obtain ⟨hc, hr⟩ := hasChar_cons_false h
    have hp : pfxB TERML (c :: r) = false := by
      show pfxB ('[' :: "/ACTION]".data) (c :: r) = false
      simp [pfxB, Ne.symm hc]
    simp only [splitTerm0, hp, Bool.false_eq_true, if_false, ih hr, Option.map_none']

theorem splitTerm1_none : ∀ (s : List Char), hasChar s '[' = false →
    splitTerm1 s = none := by
  intro s h
  cases s with
  | nil => rfl
  | cons c r =>
    obtain ⟨_, hr⟩ := hasChar_cons_false h
    simp only [splitTerm1, splitTerm0_none r hr, Option.map_none']

theorem splitTerm0_find : ∀ (p q : List Char), hasChar p '[' = false →
    splitTerm0 (p ++ (TERML ++ q)) = some (p, q) := by
  intro p
  induction p with
  | nil =>
    intro q _
    have hc : TERML ++ q = '[' :: ("/ACTION]".data ++ q) := rfl
    rw [List.nil_append, hc]
    simp only [splitTerm0]
    rw [← hc]
    rw [pfxB_self_append TERML q]
    simp only [if_true]
    rw [hc]
    rfl
  | cons c p2 ih =>
    intro q h
    obtain ⟨hc, hp2⟩ := hasChar_cons_false h
    have hp : pfxB TERML (c :: (p2 ++ (TERML ++ q))) = false := by
      show pfxB ('[' :: "/ACTION]".data) _ = false
      simp [pfxB, Ne.symm hc]
    rw [List.cons_append]
    simp only [splitTerm0, hp, Bool.false_eq_true, if_false, ih q hp2, Option.map_some']

theorem splitTerm1_find : ∀ (p q : List Char), p ≠ [] → hasChar p '[' = false →
    splitTerm1 (p ++ (TERML ++ q)) = some (p, q) := by
  intro p q hne h
  cases p with
  | nil => exact absurd rfl hne
  | cons c p2 =>
    obtain ⟨_, hp2⟩ := hasChar_cons_false h
    rw [List.cons_append]
    simp only [splitTerm1, splitTerm0_find p2 q hp2, Option.map_some']

theorem scanNewF_nil : ∀ (n : Nat), scanNewF n [] = [] := by
  intro n; cases n <;> rfl

theorem stripNewF_nil : ∀ (n : Nat), stripNewF n [] = [] := by
  intro n; cases n <;> rfl

theorem scanOldF_nil : ∀ (n : Nat), scanOldF n [] = [] := by
  intro n; cases n <;> rfl

theorem scanNewF_opener_some (fuel : Nat) (k : ActKind) (x p q : List Char)
    (hs : splitTerm1 x = some (p, q)) :
    scanNewF (fuel + 1) (openerL k ++ x) = (k, p) :: scanNewF fuel q := by
  have hm : matchKindAt (openerL k ++ x) = some k := matchKindAt_opener k x
  have hd : (openerL k ++ x).drop (openerL k).length = x := dropLen _ _
  rw [opener_cons] at hm hd ⊢
  simp only [scanNewF, hm, hd, hs]

theorem scanNewF_opener_none (fuel : Nat) (k : ActKind) (x : List Char)
    (hs : splitTerm1 x = none) :
    scanNewF (fuel + 1) (openerL k ++ x) =
      scanNewF fuel ((openerL k).tail ++ x) := by
  have hm : matchKindAt (openerL k ++ x) = some k := matchKindAt_opener k x
  have hd : (openerL k ++ x).drop (openerL k).length = x := dropLen _ _
  rw [opener_cons] at hm hd ⊢
  simp only [scanNewF, hm, hd, hs]

theorem stripNewF_opener_some (fuel : Nat) (k : ActKind) (x p q : List Char)
    (hs : splitTerm1 x = some (p, q)) :
    stripNewF (fuel + 1) (openerL k ++ x) = stripNewF fuel q := by
  have hm : matchKindAt (openerL k ++ x) = some k := matchKindAt_opener k x
  have hd : (openerL k ++ x).drop (openerL k).length = x := dropLen _ _
  rw [opener_cons] at hm hd ⊢
  simp only [stripNewF, hm, hd, hs]

theorem stripNewF_opener_none (fuel : Nat) (k : ActKind) (x : List Char)
    (hs : splitTerm1 x = none) :
    stripNewF (fuel + 1) (openerL k ++ x) =
      '[' :: stripNewF fuel ((openerL k).tail ++ x) := by
  have hm : matchKindAt (openerL k ++ x) = some k := matchKindAt_opener k x
  have hd : (openerL k ++ x).drop (openerL k).length = x := dropLen _ _
  rw [opener_cons] at hm hd ⊢
  simp only [stripNewF, hm, hd, hs]

theorem takeWhile_no_rbr : ∀ (p q2 : List Char), hasChar p ']' = false →
    (p ++ (']' :: q2)).takeWhile (fun d => d != ']') = p := by
  intro p
  induction p with
  | nil => intro q2 _; simp [List.takeWhile]
  | cons c p2 ih =>
    intro q2 h
    obtain ⟨hc, hp2⟩ := hasChar_cons_false h
    simp only [List.cons_append, List.takeWhile_cons, bne_iff_ne, ne_eq, hc,
      not_false_eq_true, if_true, ih q2 hp2]

theorem dropWhile_no_rbr : ∀ (p q2 : List Char), hasChar p ']' = false →
    (p ++ (']' :: q2)).dropWhile (fun d => d != ']') = ']' :: q2 := by
  intro p
  induction p with
  | nil => intro q2 _; simp [List.dropWhile]
  | cons c p2 ih =>
    intro q2 h
    obtain ⟨hc, hp2⟩ := hasChar_cons_false h
    simp only [List.cons_append, List.dropWhile_cons, bne_iff_ne, ne_eq, hc,
      not_false_eq_true, if_true, ih q2 hp2]

theorem scanOldF_opener_found (fuel : Nat) (k : ActKind) (p q2 : List Char)
    (hne : p ≠ []) (hbr : hasChar p ']' = false) :
    scanOldF (fuel + 1) (openerL k ++ (p ++ (']' :: q2))) =
      (k, p) :: scanOldF fuel q2 := by
  have hm : matchKindAt (openerL k ++ (p ++ (']' :: q2))) = some k :=
    matchKindAt_opener k _
  have hd : (openerL k ++ (p ++ (']' :: q2))).drop (openerL k).length =
      p ++ (']' :: q2) := dropLen _ _
  have hemp : p.isEmpty = false := by cases p with
    | nil => exact absurd rfl hne
    | cons a b => rfl
  rw [opener_cons] at hm hd ⊢
  simp only [scanOldF, hm, hd, takeWhile_no_rbr p q2 hbr,
    dropWhile_no_rbr p q2 hbr, hemp, Bool.false_eq_true, if_false]

theorem hasChar_append (a b : List Char) (x : Char) :
    hasChar (a ++ b) x = (hasChar a x || hasChar b x) := by
  simp [hasChar, List.any_append]

theorem opener_tail_no_br (k : ActKind) : hasChar (openerL k).tail '[' = false := by
  cases k <;> decide

/-- A well-formed terminator-dialect tag is extracted as exactly its one
descriptor. -/
theorem extract_new_tag (k : ActKind) (p : List Char) (hne : p ≠ [])
    (hbr : hasChar p '[' = false) :
    extractActionsL (openerL k ++ (p ++ TERML)) = [parseRawPayload k p] := by
  have hs : splitTerm1 (p ++ TERML) = some (p, []) := by
    have h := splitTerm1_find p [] hne hbr
    rwa [List.append_nil] at h
  have hpos : 0 < (openerL k ++ (p ++ TERML)).length :=
    List.length_pos.mpr (opener_ne_nil k _)
  obtain ⟨m, hm⟩ : ∃ m, (openerL k ++ (p ++ TERML)).length = m + 1 :=
    ⟨(openerL k ++ (p ++ TERML)).length - 1, by omega⟩
  have hscan : scanNewL (openerL k ++ (p ++ TERML)) = [(k, p)] := by
    rw [scanNewL, hm, scanNewF_opener_some m k _ p [] hs, scanNewF_nil]
  have hstrip : stripNewL (openerL k ++ (p ++ TERML)) = [] := by
    rw [stripNewL, hm, stripNewF_opener_some m k _ p [] hs, stripNewF_nil]
  rw [extractActionsL, hscan, hstrip]
  rfl

/-- A well-formed legacy-dialect tag is extracted as exactly its one
descriptor. -/
theorem extract_old_tag (k : ActKind) (p : List Char) (hne : p ≠ [])
    (hbrL : hasChar p '[' = false) (hbrR : hasChar p ']' = false) :
    extractActionsL (openerL k ++ (p ++ [']'])) = [parseRawPayload k p] := by
  have hx : hasChar (p ++ [']']) '[' = false := by
    rw [hasChar_append, hbrL]
    rfl
  have hs : splitTerm1 (p ++ [']']) = none := splitTerm1_none _ hx
  have htail : hasChar ((openerL k).tail ++ (p ++ [']'])) '[' = false := by
    rw [hasChar_append, opener_tail_no_br, hx]
    rfl
  have hpos : 0 < (openerL k ++ (p ++ [']'])).length :=
    List.length_pos.mpr (opener_ne_nil k _)
  obtain ⟨m, hm⟩ : ∃ m, (openerL k ++ (p ++ [']'])).length = m + 1 :=
    ⟨(openerL k ++ (p ++ [']'])).length - 1, by omega⟩
  have hscan : scanNewL (openerL k ++ (p ++ [']'])) = [] := by
    rw [scanNewL, hm, scanNewF_opener_none m k _ hs,
      scanNewF_noOcc m _ (noBr_noTag htail)]
  have hstrip : stripNewL (openerL k ++ (p ++ [']'])) =
      openerL k ++ (p ++ [']']) := by
    rw [stripNewL, hm, stripNewF_opener_none m k _ hs,
      stripNewF_noOcc m _ (noBr_noTag htail), ← opener_cons]
  have hold : scanOldL (openerL k ++ (p ++ [']'])) = [(k, p)] := by
    rw [scanOldL, hm]
    have : p ++ [']'] = p ++ (']' :: []) := rfl
    rw [this, scanOldF_opener_found m k p [] hne hbrR, scanOldF_nil]
  rw [extractActionsL, hscan, hstrip, hold]
  rfl

-- ── Occurrence and suffix lemmas for the stream machine ──────────────────────

theorem pfxB_exists : ∀ {p s : List Char}, pfxB p s = true → ∃ r, s = p ++ r := by
  intro p
  induction p with
  | nil => intro s _; exact ⟨s, rfl⟩
  | cons x p2 ih =>
    intro s h
    cases s with
    | nil => simp [pfxB] at h
    | cons y s2 =>
      simp only [pfxB, Bool.and_eq_true, beq_iff_eq] at h
      obtain ⟨r, hr⟩ := ih h.2
      exact ⟨r, by rw [h.1, hr]; rfl⟩

theorem pfxB_length {p s : List Char} (h : pfxB p s = true) :
    p.length ≤ s.length := by
  obtain ⟨r, hr⟩ := pfxB_exists h
  rw [hr, List.length_append]
  omega

theorem pfxB_mono_append {p s : List Char} (t : List Char)
    (h : pfxB p s = true) : pfxB p (s ++ t) = true := by
  obtain ⟨r, hr⟩ := pfxB_exists h
  rw [hr, List.append_assoc]
  exact pfxB_self_append p (r ++ t)

theorem pfxB_of_append_pfx {a b s : List Char} (h : pfxB (a ++ b) s = true) :
    pfxB a s = true := by
  obtain ⟨r, hr⟩ := pfxB_exists h
  rw [hr, List.append_assoc]
  exact pfxB_self_append a (b ++ r)

theorem occursB_of_pfx {pat s : List Char} (h : pfxB pat s = true) :
    occursB pat s = true := by
  cases s with
  | nil => exact h
  | cons c r => simp [occursB, h]

theorem occursB_mono_left {pat a : List Char} (b : List Char)
    (h : occursB pat a = true) : occursB pat (a ++ b) = true := by
  induction a with
  | nil =>
    have hp : pat = [] := by
      cases pat with
      | nil => rfl
      | cons x p2 => simp [occursB, pfxB] at h
    subst hp
    exact occursB_of_pfx rfl
  | cons c a2 ih =>
    simp only [occursB, Bool.or_eq_true] at h
    rcases h with h | h
    · exact occursB_of_pfx (pfxB_mono_append b h)
    · simp only [List.cons_append, occursB, Bool.or_eq_true]
      exact Or.inr (ih h)

theorem occursB_prefix_false {pat a b : List Char}
    (h : occursB pat (a ++ b) = false) : occursB pat a = false := by
  cases ha : occursB pat a
  · rfl
  · rw [occursB_mono_left b ha] at h
    exact h

theorem occursB_mono_pat {p1 p2 : List Char} (hp : pfxB p1 p2 = true) :
    ∀ (s : List Char), occursB p2 s = true → occursB p1 s = true := by
  intro s
  induction s with
  | nil =>
    intro h
    have h2 : p2 = [] := by
      cases p2 with
      | nil => rfl
      | cons x q => simp [occursB, pfxB] at h
    subst h2
    have h1 : p1 = [] := by
      cases p1 with
      | nil => rfl
      | cons x q => simp [pfxB] at hp
    subst h1
    rfl
  | cons c r ih =>
    intro h
    simp only [occursB, Bool.or_eq_true] at h ⊢
    rcases h with h | h
    · exact Or.inl (pfxB_trans _ _ _ hp h)
    · exact Or.inr (ih h)

theorem noBr_noPat (w : List Char) : ∀ {s : List Char},
    hasChar s '[' = false → occursB ('[' :: w) s = false := by
  intro s
  induction s with
  | nil => intro _; rfl
  | cons c r ih =>
    intro h
    obtain ⟨hc, hr⟩ := hasChar_cons_false h
    simp only [occursB, Bool.or_eq_false_iff]
    exact ⟨by simp [pfxB, Ne.symm hc], ih hr⟩

theorem hasChar_append_false_left {a b : List Char} {x : Char}
    (h : hasChar (a ++ b) x = false) : hasChar a x = false := by
  rw [hasChar_append] at h
  exact (Bool.or_eq_false_iff.mp h).1

theorem occursB_lbrslash (pre q : List Char) (hpre : hasChar pre '[' = false)
    (hq : hasChar q '[' = false) (hqh : q = [] ∨ ∃ q2, q = 'A' :: q2) :
    occursB ['[', '/'] (pre ++ ('[' :: q)) = false := by
  induction pre with
  | nil =>
    simp only [List.nil_append, occursB, Bool.or_eq_false_iff]
    constructor
    · rcases hqh with h | ⟨q2, h⟩ <;> subst h <;> rfl
    · exact noBr_noPat ['/'] hq
  | cons c pre2 ih =>
    obtain ⟨hc, hpre2⟩ := hasChar_cons_false hpre
    simp only [List.cons_append, occursB, Bool.or_eq_false_iff]
    exact ⟨by simp [pfxB, Ne.symm hc], ih hpre2⟩

theorem occursB_of_append (pat a b : List Char) :
    occursB pat (a ++ (pat ++ b)) = true := by
  induction a with
  | nil => exact occursB_of_pfx (pfxB_self_append pat b)
  | cons c a2 ih =>
    simp only [List.cons_append, occursB, Bool.or_eq_true]
    exact Or.inr ih

theorem opener_tail_cons (k : ActKind) (x : List Char) :
    (openerL k).tail ++ x = 'A' :: ((openerL k).tail.tail ++ x) := by
  cases k <;> rfl

theorem openerL_two (k : ActKind) : ∃ t, openerL k = '[' :: 'A' :: t := by
  cases k <;> exact ⟨_, rfl⟩

-- ── Claim C1 ─────────────────────────────────────────────────────────────────

/-- The accumulation `full += chunk` performed by `streamChat` over the
incoming content fragments: extraction is applied to this accumulated text. -/
def accumFull (chunks : List String) : String :=
  chunks.foldl (fun acc c => acc ++ c) ""

/-- C1: the extracted action list is a function of the concatenation of all
fragments — invariant under chunking — and for a well-formed action tag of
either dialect it is exactly the one descriptor obtained from the tag's kind
and payload, no matter how the text was chunked. -/
theorem claim_C1_extraction_chunk_invariant :
    (∀ chunks chunksB : List String, accumFull chunks = accumFull chunksB →
      extractActions (accumFull chunks) = extractActions (accumFull chunksB)) ∧
    (∀ (k : ActKind) (p : String) (chunks : List String),
      p.data ≠ [] → hasChar p.data '[' = false →
      (accumFull chunks).data = openerL k ++ (p.data ++ TERML) →
      extractActions (accumFull chunks) = [parseRawPayload k p.data]) ∧
    (∀ (k : ActKind) (p : String) (chunks : List String),
      p.data ≠ [] → hasChar p.data '[' = false → hasChar p.data ']' = false →
      (accumFull chunks).data = openerL k ++ (p.data ++ [']']) →
      extractActions (accumFull chunks) = [parseRawPayload k p.data]) := by
  refine ⟨?_, ?_, ?_⟩
  · intro a b h
    rw [h]
  · intro k p chunks hne hbr hacc
    rw [extractActions, hacc]
    exact extract_new_tag k p.data hne hbr
  · intro k p chunks hne hbrL hbrR hacc
    rw [extractActions, hacc]
    exact extract_old_tag k p.data hne hbrL hbrR

/-- Witness for C1: a terminator-dialect tag chunked inside the opener, the
payload and the terminator, and a legacy tag chunked inside the opener and
payload, each extracted as the expected single descriptor. -/
theorem claim_C1_witness :
    extractActions
        (accumFull ["[ACT", "ION:WRITE_FILE:/tmp/a:hi the", "re[/ACT", "ION]"]) =
      [⟨.WRITE_FILE, "/tmp/a".data, some "hi there".data⟩] ∧
    extractActions (accumFull ["[ACTION:RUN", "_CMD:ls -", "la]"]) =
      [⟨.RUN_CMD, "ls -la".data, none⟩] := by
  constructor
  · have h := claim_C1_extraction_chunk_invariant.2.1 .WRITE_FILE "/tmp/a:hi there"
      ["[ACT", "ION:WRITE_FILE:/tmp/a:hi the", "re[/ACT", "ION]"]
      (by decide) (by decide) (by decide)
    exact h.trans (by decide)
  · have h := claim_C1_extraction_chunk_invariant.2.2 .RUN_CMD "ls -la"
      ["[ACTION:RUN", "_CMD:ls -", "la]"]
      (by decide) (by decide) (by decide) (by decide)
    exact h.trans (by decide)

-- ── Claim C4 ─────────────────────────────────────────────────────────────────

/-- C4 (counterexample): the input " hello " contains no action markup, yet
the scanner's display output is "hello", not the input itself — `stripActions`
ends with a `trim()`, so leading/trailing whitespace is not preserved
character for character. -/
theorem claim_C4_counterexample :
    occursB "[ACTION".data " hello ".data = false ∧
    stripActions " hello " ≠ " hello " := by
  decide

/-- C4 (amended): for every input text containing no action markup (no
occurrence of the substring `[ACTION`), the extracted action list is empty and
the display output is exactly the input trimmed of leading and trailing
whitespace; in particular it equals the input character for character whenever
the input has no leading or trailing whitespace. -/
theorem claim_C4_no_markup_amended :
    ∀ t : String, occursB "[ACTION".data t.data = false →
      extractActions t = [] ∧
      stripActions t = String.mk (jsTrim t.data) ∧
      (jsTrim t.data = t.data → stripActions t = t) := by
  intro t h
  have hNew : stripNewL t.data = t.data := stripNewF_noOcc _ _ h
  have hOld : stripOldL t.data = t.data := stripOldF_noOcc _ _ h
  have hStrip : stripActions t = String.mk (jsTrim t.data) := by
    unfold stripActions stripActionsL
    rw [hNew, hOld, stripPartialL_noOcc _ h]
  refine ⟨?_, hStrip, ?_⟩
  · unfold extractActions extractActionsL scanNewL scanOldL
    rw [scanNewF_noOcc _ _ h, hNew, scanOldF_noOcc _ _ h]
    rfl
  · intro he
    rw [hStrip, he]

/-- Witness for the amended C4 at a concrete markup-free input. -/
theorem claim_C4_witness :
    extractActions "no markup here" = [] ∧
    stripActions "no markup here" = "no markup here" := by
  have h := claim_C4_no_markup_amended "no markup here" (by decide)
  exact ⟨h.1, h.2.2 (by decide)⟩

-- ── Streaming display machine (terminal.mjs streamChat) ──────────────────────

/-- The mutable scanner state of `streamChat`: the `insideAction` flag, the
`pendingBracket` buffer, and the text written to stdout so far. -/
structure StreamState where
  insideAction : Bool
  pending : List Char
  display : List Char
deriving DecidableEq, Repr

/-- `pendingBracket.match(/^\[ACTION:(READ_FILE|RUN_CMD|RUN_SCRIPT|WRITE_FILE):/)`:
the buffer starts with a complete opener. -/
def matchesOpenerB (pending : List Char) : Bool :=
  pfxB (openerL .READ_FILE) pending || pfxB (openerL .RUN_CMD) pending ||
  pfxB (openerL .RUN_SCRIPT) pending || pfxB (openerL .WRITE_FILE) pending

/-- `'[ACTION:READ_FILE:'.startsWith(pendingBracket) || ...`: the buffer is a
prefix of at least one opener. -/
def isOpenerPfxB (pending : List Char) : Bool :=
  pfxB pending (openerL .READ_FILE) || pfxB pending (openerL .RUN_CMD) ||
  pfxB pending (openerL .RUN_SCRIPT) || pfxB pending (openerL .WRITE_FILE)

/-- One character of the display-suppression loop.  `endsTerm` is the value of
`full.endsWith('[/ACTION]')` — the source checks it against the text
accumulated through the end of the current chunk, so it is constant while a
chunk is processed. -/
def stepChar (endsTerm : Bool) (st : StreamState) (ch : Char) : StreamState :=
  if st.insideAction then
    if endsTerm then { st with insideAction := false } else st
  else
    let pending2 := st.pending ++ [ch]
    if ch == '[' then { st with pending := ['['] }
    else if pfxB ['['] pending2 then
      if matchesOpenerB pending2 then { st with insideAction := true, pending := [] }
      else if pending2.length > 30 || !(isOpenerPfxB pending2) then
        { st with pending := [], display := st.display ++ pending2 }
      else { st with pending := pending2 }
    else { st with pending := [], display := st.display ++ [ch] }

/-- `full.endsWith('[/ACTION]')`. -/
def endsWithTerm (full : List Char) : Bool := pfxB TERML.reverse full.reverse

/-- Process one content chunk: `full += chunk`, then run the per-character
loop with the chunk's (constant) `endsWith` observation. -/
def procChunk (acc : List Char × StreamState) (chunk : List Char) :
    List Char × StreamState :=
  let full2 := acc.1 ++ chunk
  (full2, chunk.foldl (stepChar (endsWithTerm full2)) acc.2)

/-- The scanner state before any chunk arrives. -/
def initState : StreamState := ⟨false, [], []⟩

/-- Run the display loop over a whole stream of content chunks. -/
def runStream (chunks : List (List Char)) : List Char × StreamState :=
  chunks.foldl procChunk ([], initState)

/-- The end-of-stream flush: `if (pendingBracket && !insideAction)
process.stdout.write(pendingBracket)`. -/
def flushDisplay (st : StreamState) : List Char :=
  st.display ++ (if !st.pending.isEmpty && !st.insideAction then st.pending else [])

/-- Everything `streamChat` writes to the display for a given stream. -/
def streamDisplay (chunks : List (List Char)) : List Char :=
  flushDisplay (runStream chunks).2

/-- Concatenation of the stream's chunks. -/
def joinL : List (List Char) → List Char
  | [] => []
  | c :: cs => c ++ joinL cs

theorem endsWithTerm_occ {f : List Char} (h : endsWithTerm f = true) :
    occursB TERML f = true := by
  unfold endsWithTerm at h
  obtain ⟨r, hr⟩ := pfxB_exists h
  have hf : f = r.reverse ++ TERML := by
    have h2 := congrArg List.reverse hr
    simpa [List.reverse_append] using h2
  rw [hf]
  have h3 := occursB_of_append TERML r.reverse []
  rwa [List.append_nil] at h3

theorem endsWithTerm_false_of_noOcc {f : List Char}
    (h : occursB TERML f = false) : endsWithTerm f = false := by
  cases he : endsWithTerm f
  · rfl
  · have h2 := endsWithTerm_occ he
    rw [h] at h2
    exact h2.symm

theorem procFold_pure : ∀ (chunks : List (List Char)) (full0 : List Char)
    (st : StreamState), occursB TERML (full0 ++ joinL chunks) = false →
    (chunks.foldl procChunk (full0, st)).2 =
      (joinL chunks).foldl (stepChar false) st := by
  intro chunks
  induction chunks with
  | nil => intro full0 st _; rfl
  | cons c cs ih =>
    intro full0 st h
    have hassoc : full0 ++ joinL (c :: cs) = (full0 ++ c) ++ joinL cs := by
      simp [joinL]
    rw [hassoc] at h
    have het : endsWithTerm (full0 ++ c) = false :=
      endsWithTerm_false_of_noOcc (occursB_prefix_false h)
    have hp : procChunk (full0, st) c =
        (full0 ++ c, c.foldl (stepChar false) st) := by
      simp [procChunk, het]
    show (cs.foldl procChunk (procChunk (full0, st) c)).2 = _
    rw [hp, ih (full0 ++ c) _ h]
    simp [joinL, List.foldl_append]

theorem runStream_state_pure (chunks : List (List Char))
    (h : occursB TERML (joinL chunks) = false) :
    (runStream chunks).2 = (joinL chunks).foldl (stepChar false) initState :=
  procFold_pure chunks [] initState (by rwa [List.nil_append])

theorem foldPre : ∀ (pre rest d : List Char), hasChar pre '[' = false →
    (pre ++ rest).foldl (stepChar false) ⟨false, [], d⟩ =
      rest.foldl (stepChar false) ⟨false, [], d ++ pre⟩ := by
  intro pre
  induction pre with
  | nil => intro rest d _; simp
  | cons c p2 ih =>
    intro rest d h
    obtain ⟨hc, hp2⟩ := hasChar_cons_false h
    have hb1 : (c == '[') = false := beq_eq_false_iff_ne.mpr hc
    have hb2 : ('[' == c) = false := beq_eq_false_iff_ne.mpr (Ne.symm hc)
    have hstep : stepChar false ⟨false, [], d⟩ c = ⟨false, [], d ++ [c]⟩ := by
      simp [stepChar, pfxB, hb1, hb2]
    rw [List.cons_append, List.foldl_cons, hstep, ih rest (d ++ [c]) hp2]
    rw [List.append_assoc]
    rfl

theorem stepChar_factor (et : Bool) (ia : Bool) (p d : List Char) (c : Char) :
    stepChar et ⟨ia, p, d⟩ c =
      ⟨(stepChar et ⟨ia, p, []⟩ c).insideAction,
       (stepChar et ⟨ia, p, []⟩ c).pending,
       d ++ (stepChar et ⟨ia, p, []⟩ c).display⟩ := by
  cases ia <;> cases et <;> simp only [stepChar] <;> split_ifs <;> simp

theorem foldl_factor : ∀ (l : List Char) (ia : Bool) (p d : List Char),
    l.foldl (stepChar false) ⟨ia, p, d⟩ =
      ⟨(l.foldl (stepChar false) ⟨ia, p, []⟩).insideAction,
       (l.foldl (stepChar false) ⟨ia, p, []⟩).pending,
       d ++ (l.foldl (stepChar false) ⟨ia, p, []⟩).display⟩ := by
  intro l
  induction l with
  | nil => intro ia p d; simp
  | cons c l2 ih =>
    intro ia p d
    rw [List.foldl_cons, List.foldl_cons, stepChar_factor false ia p d c]
    cases hs2 : stepChar false ⟨ia, p, []⟩ c with
    | mk ia2 p2 d2 =>
      rw [ih ia2 p2 (d ++ d2), ih ia2 p2 d2]
      simp [List.append_assoc]

theorem foldOpenerZ (k : ActKind) :
    (openerL k).foldl (stepChar false) ⟨false, [], []⟩ = ⟨true, [], []⟩ := by
  cases k <;> decide

theorem foldOpener (k : ActKind) (d : List Char) :
    (openerL k).foldl (stepChar false) ⟨false, [], d⟩ = ⟨true, [], d⟩ := by
  rw [foldl_factor, foldOpenerZ]
  simp

theorem foldOpenerApp (k : ActKind) (rest d : List Char) :
    (openerL k ++ rest).foldl (stepChar false) ⟨false, [], d⟩ =
      rest.foldl (stepChar false) ⟨true, [], d⟩ := by
  rw [List.foldl_append, foldOpener]

theorem foldInside : ∀ (body p d : List Char),
    body.foldl (stepChar false) ⟨true, p, d⟩ = ⟨true, p, d⟩ := by
  intro body
  induction body with
  | nil => intro p d; rfl
  | cons c b2 ih =>
    intro p d
    rw [List.foldl_cons]
    exact ih p d

theorem hasChar_false_forall {s : List Char} {x : Char}
    (h : hasChar s x = false) : ∀ c ∈ s, c ≠ x := by
  intro c hc heq
  subst heq
  simp only [hasChar, List.any_eq_false] at h
  exact absurd (beq_self_eq_true c) (h c hc)

theorem openerL_length_le (k : ActKind) : (openerL k).length ≤ 19 := by
  cases k <;> decide

theorem matchesOpenerB_false_of {s : List Char}
    (h : ∀ k, pfxB (openerL k) s = false) : matchesOpenerB s = false := by
  simp [matchesOpenerB, h .READ_FILE, h .RUN_CMD, h .RUN_SCRIPT, h .WRITE_FILE]

theorem isOpenerPfxB_of {s : List Char} (k : ActKind)
    (h : pfxB s (openerL k) = true) : isOpenerPfxB s = true := by
  cases k <;> simp [isOpenerPfxB, h]

theorem foldBuffer : ∀ (q pend d : List Char) (k0 : ActKind),
    pend ≠ [] → pfxB ['['] pend = true →
    pfxB (pend ++ q) (openerL k0) = true →
    (pend ++ q).length < (openerL k0).length →
    q.foldl (stepChar false) ⟨false, pend, d⟩ = ⟨false, pend ++ q, d⟩ := by
  intro q
  induction q with
  | nil => intro pend d k0 _ _ _ _; simp
  | cons c q2 ih =>
    intro pend d k0 hne hhd hpfx hlen
    have hplus : pend ++ c :: q2 = (pend ++ [c]) ++ q2 := by simp
    obtain ⟨pend2, hp⟩ : ∃ pend2, pend = '[' :: pend2 := by
      cases pend with
      | nil => exact absurd rfl hne
      | cons a b =>
        have ha : '[' = a := by
          simp only [pfxB, Bool.and_eq_true, beq_iff_eq] at hhd
          exact hhd.1
        exact ⟨b, by rw [← ha]⟩
    have hcne : c ≠ '[' := by
      obtain ⟨r, hr⟩ := pfxB_exists hpfx
      have hmem : c ∈ (openerL k0).tail := by
        rw [hr, hp]
        simp
      exact hasChar_false_forall (opener_tail_no_br k0) c hmem
    have hsub : pfxB (pend ++ [c]) (openerL k0) = true := by
      rw [hplus] at hpfx
      exact pfxB_of_append_pfx hpfx
    have hlt : (pend ++ [c]).length < (openerL k0).length := by
      simp only [List.length_append, List.length_cons, List.length_nil] at hlen ⊢
      omega
    have hoplen : ∀ k : ActKind, pfxB (openerL k) (pend ++ [c]) = false := by
      intro k
      by_cases hkk : k = k0
      · subst hkk
        cases hp2 : pfxB (openerL k) (pend ++ [c])
        · rfl
        · have := pfxB_length hp2
          omega
      · cases hp2 : pfxB (openerL k) (pend ++ [c])
        · rfl
        · exfalso
          have htr := pfxB_trans _ _ _ hp2 hsub
          have hf := opener_not_pfx k0 k (fun h => hkk h.symm) []
          rw [List.append_nil] at hf
          rw [htr] at hf
          exact Bool.noConfusion hf
    have hmop : matchesOpenerB (pend ++ [c]) = false := matchesOpenerB_false_of hoplen
    have hiop : isOpenerPfxB (pend ++ [c]) = true := isOpenerPfxB_of k0 hsub
    have h19 := openerL_length_le k0
    have hlen2 : pend.length + 1 < (openerL k0).length := by
      simp only [List.length_append, List.length_cons, List.length_nil] at hlt
      omega
    have h30b : ¬(pend ++ [c]).length > 30 := by
      simp only [List.length_append, List.length_cons, List.length_nil]
      omega
    have hb1 : (c == '[') = false := beq_eq_false_iff_ne.mpr hcne
    have hhd2 : pfxB ['['] (pend ++ [c]) = true := pfxB_mono_append [c] hhd
    have hstep : stepChar false ⟨false, pend, d⟩ c = ⟨false, pend ++ [c], d⟩ := by
      simp [stepChar, hb1, hhd2, hmop, hiop, h30b]
      omega
    rw [List.foldl_cons, hstep,
      ih (pend ++ [c]) d k0 (by simp) hhd2
        (by rw [← hplus]; exact hpfx) (by rw [← hplus]; exact hlen), ← hplus]

-- ── Claim C8 ─────────────────────────────────────────────────────────────────

/-- C8 (counterexample): a stream ending while the scanner is still buffering
a proper prefix of an opener is NOT discarded: the end-of-stream flush writes
the buffered partial tag verbatim to the display. -/
theorem claim_C8_counterexample :
    streamDisplay ["[ACTION:RU".data] = "[ACTION:RU".data ∧
    (runStream ["[ACTION:RU".data]).2.insideAction = false ∧
    (runStream ["[ACTION:RU".data]).2.pending = "[ACTION:RU".data ∧
    isOpenerPfxB "[ACTION:RU".data = true ∧
    matchesOpenerB "[ACTION:RU".data = false := by
  decide

/-- C8 (amended): if the stream ends while inside an action body (a complete
opener was consumed, no terminator anywhere), the partial tag — opener and
body — is discarded from the display, which shows exactly the text preceding
the tag.  If instead the stream ends while the scanner is still buffering a
proper prefix of an opener, the end-of-stream flush writes that buffered
prefix verbatim to the display rather than discarding it. -/
theorem claim_C8_stream_end_amended :
    (∀ (chunks : List (List Char)) (pre body : List Char) (k : ActKind),
      hasChar pre '[' = false → hasChar body '[' = false →
      joinL chunks = pre ++ (openerL k ++ body) →
      streamDisplay chunks = pre ∧ (runStream chunks).2.insideAction = true) ∧
    (∀ (chunks : List (List Char)) (pre q : List Char) (k0 : ActKind),
      hasChar pre '[' = false →
      pfxB ('[' :: q) (openerL k0) = true →
      ('[' :: q).length < (openerL k0).length →
      joinL chunks = pre ++ ('[' :: q) →
      streamDisplay chunks = pre ++ ('[' :: q) ∧
      (runStream chunks).2.insideAction = false ∧
      (runStream chunks).2.pending = '[' :: q) := by
  constructor
  · intro chunks pre body k hpre hbody hjoin
    have hq : hasChar ((openerL k).tail ++ body) '[' = false := by
      rw [hasChar_append, opener_tail_no_br k, hbody]
      rfl
    have hsl : occursB ['[', '/'] (joinL chunks) = false := by
      rw [hjoin, opener_cons]
      exact occursB_lbrslash pre _ hpre hq
        (Or.inr ⟨(openerL k).tail.tail ++ body, opener_tail_cons k body⟩)
    have hterm : occursB TERML (joinL chunks) = false := by
      cases ht : occursB TERML (joinL chunks)
      · rfl
      · have h2 := @occursB_mono_pat ['[', '/'] TERML (by decide) _ ht
        exact absurd h2 (by simp [hsl])
    have hst := runStream_state_pure chunks hterm
    simp only [initState] at hst
    rw [hjoin, foldPre pre (openerL k ++ body) [] hpre, List.nil_append,
      foldOpenerApp, foldInside] at hst
    constructor
    · simp [streamDisplay, flushDisplay, hst]
    · rw [hst]
  · intro chunks pre q k0 hpre hq hlen hjoin
    obtain ⟨r, hr⟩ := pfxB_exists hq
    have htail : (openerL k0).tail = q ++ r := by
      rw [hr]
      rfl
    have hqbr : hasChar q '[' = false :=
      hasChar_append_false_left (htail ▸ opener_tail_no_br k0)
    have hqh : q = [] ∨ ∃ q2, q = 'A' :: q2 := by
      cases q with
      | nil => exact Or.inl rfl
      | cons a q2 =>
        obtain ⟨t, ht⟩ := openerL_two k0
        rw [ht] at hr
        simp only [List.cons_append, List.cons.injEq] at hr
        exact Or.inr ⟨q2, by rw [← hr.2.1]⟩
    have hsl : occursB ['[', '/'] (joinL chunks) = false := by
      rw [hjoin]
      exact occursB_lbrslash pre q hpre hqbr hqh
    have hterm : occursB TERML (joinL chunks) = false := by
      cases ht : occursB TERML (joinL chunks)
      · rfl
      · have h2 := @occursB_mono_pat ['[', '/'] TERML (by decide) _ ht
        exact absurd h2 (by simp [hsl])
    have hst := runStream_state_pure chunks hterm
    simp only [initState] at hst
    rw [hjoin, foldPre pre ('[' :: q) [] hpre, List.nil_append,
      List.foldl_cons] at hst
    have hbr : stepChar false ⟨false, [], pre⟩ '[' = ⟨false, ['['], pre⟩ := rfl
    rw [hbr, foldBuffer q ['['] pre k0 (by simp) rfl hq hlen] at hst
    refine ⟨?_, by rw [hst], by rw [hst]; rfl⟩
    simp only [streamDisplay, flushDisplay, hst]
    rfl

/-- Witness for the amended C8: a stream ending inside an action body (chunked
mid-opener and mid-body) displays only the preceding text, while a stream
ending on a buffered opener prefix flushes that prefix verbatim. -/
theorem claim_C8_witness :
    streamDisplay ["abc [AC".data, "TION:RUN_CMD:l".data, "s".data] = "abc ".data ∧
    streamDisplay ["x".data, "[ACTION:RU".data] = "x[ACTION:RU".data := by
  constructor
  · exact (claim_C8_stream_end_amended.1
      ["abc [AC".data, "TION:RUN_CMD:l".data, "s".data]
      "abc ".data "ls".data .RUN_CMD (by decide) (by decide) (by decide)).1
  · have h := claim_C8_stream_end_amended.2
      ["x".data, "[ACTION:RU".data] "x".data "ACTION:RU".data .RUN_CMD
      (by decide) (by decide) (by decide) (by decide)
    exact h.1.trans (by decide)


-- ── Executor (terminal.mjs executeAction; mirrors server /api/execute) ───────

/-- Outcome of `execSync` for a given command: normal output, or a thrown
error (non-zero exit, timeout, or spawn failure) carrying the captured
`stderr`, `stdout` and `message` fields of the exception. -/
inductive ExecOutcome where
  | ok (output : String)
  | err (stderr stdout message : String)
deriving DecidableEq, Repr

/-- The `{ success, result }` object returned by `executeAction`. -/
structure ExecResult where
  success : Bool
  result : String
deriving DecidableEq, Repr

/-- File system state: regular files and the backup store, as association
lists from path to content. -/
structure FS where
  files : List (String × String)
  backups : List (String × String)
deriving DecidableEq, Repr

/-- Observable effects: commands handed to `execSync`, and the paths the
safety gate was consulted about. -/
structure ExecLog where
  spawned : List String
  readChecked : List String
  writeChecked : List String
deriving DecidableEq, Repr

/-- The configuration and ambient values `executeAction` reads. -/
structure ExecCfg where
  readPaths : List String
  writePaths : List String
  cwd : String
  backupDir : String
  nowIso : String
deriving Repr

/-- The full observable result of one `executeAction` call. -/
structure ExecOut where
  res : ExecResult
  fs : FS
  log : ExecLog
deriving DecidableEq, Repr

/-- Empty effect log. -/
def noLog : ExecLog := ⟨[], [], []⟩

/-- Functional update of the files map (`writeFileSync`). -/
def setFS (files : List (String × String)) (p v : String) :
    List (String × String) :=
  (p, v) :: files.filter (fun kv => kv.1 != p)

/-- JS `a || b` on strings: `b` if `a` is empty (falsy), else `a`. -/
def jsOr (a b : String) : String := if a == "" then b else a

/-- Does `s` end with `suffix`? -/
def endsWithB (s suffix : String) : Bool :=
  pfxB suffix.data.reverse s.data.reverse

/-- `path.join(cwd, target)`, modelled for segment-normal inputs (no `.` or
`..` components): join with a single slash. -/
def joinPath (a b : String) : String :=
  if a == "" then b
  else if endsWithB a "/" then a ++ b
  else a ++ "/" ++ b

/-- The relative-path resolution at the top of `executeAction`:
`if (type !== 'RUN_CMD' && target && !target.startsWith('/')) target =
join(process.cwd(), target)`. -/
def resolveTarget (cwd ty target : String) : String :=
  if ty != "RUN_CMD" && target != "" && !(startsWithB target "/") then
    joinPath cwd target
  else target

/-- `target.split('.').pop().toLowerCase()`. -/
def extOf (target : String) : String :=
  let cs := target.data
  let last := if hasChar cs '.' then (cs.reverse.takeWhile (fun d => d != '.')).reverse
              else cs
  String.mk (last.map Char.toLower)

/-- Interpreter selection for `RUN_SCRIPT` by file extension. -/
def scriptShell (target : String) : String :=
  let ext := extOf target
  if ext == "bat" || ext == "cmd" || ext == "ps1" then
    if ext == "ps1" then
      "powershell -ExecutionPolicy Bypass -File \"" ++ target ++ "\""
    else "cmd /c \"" ++ target ++ "\""
  else "bash \"" ++ target ++ "\""

/-- `const fullCmd = content ? shell + ' ' + content : shell` (null and the
empty string are both falsy). -/
def composeScriptCmd (target : String) (content : Option String) : String :=
  match content with
  | some c => if c != "" then scriptShell target ++ " " ++ c else scriptShell target
  | none => scriptShell target

/-- `new Date().toISOString().replace(/[:.]/g, '-')`. -/
def sanitizeTs (ts : String) : String :=
  String.mk (ts.data.map (fun c => if c == ':' || c == '.' then '-' else c))

/-- `filepath.replace(/\//g, '__') + '.' + timestamp + '.bak'`. -/
def encodeBackupName (target ts : String) : String :=
  String.mk (target.data.flatMap (fun c => if c == '/' then ['_', '_'] else [c])) ++
    "." ++ sanitizeTs ts ++ ".bak"

/-- `backupFile` (install.bat): no-op if the target does not exist, else copy
its current content into the backup store under the timestamped,
path-encoded name and return the backup path. -/
def backupFile (cfg : ExecCfg) (fs : FS) (target : String) :
    Option String × FS :=
  match fs.files.lookup target with
  | none => (none, fs)
  | some content =>
    let backupPath := joinPath cfg.backupDir (encodeBackupName target cfg.nowIso)
    (some backupPath, { fs with backups := fs.backups ++ [(backupPath, content)] })

/-- `executeAction(type, target, content)` from terminal.mjs (the server's
`/api/execute` handler is the same logic).  The `runner` oracle stands for
`execSync`; a thrown `execErr` is the `.err` outcome, caught and converted to
a failure result — no exception escapes.  `mkdirSync` of the parent directory
has no observable effect in this model, which tracks files only. -/
def executeAction (cfg : ExecCfg) (runner : String → ExecOutcome) (fs : FS)
    (ty target0 : String) (content : Option String) : ExecOut :=
  let target := resolveTarget cfg.cwd ty target0
  if ty == "READ_FILE" then
    if !(isPathReadable cfg.readPaths target) then
      ⟨⟨false, "Access denied: \"" ++ target ++ "\" is outside allowed read paths."⟩,
        fs, ⟨[], [target], []⟩⟩
    else
      match fs.files.lookup target with
      | none => ⟨⟨false, "File not found: " ++ target⟩, fs, ⟨[], [target], []⟩⟩
      | some data => ⟨⟨true, data⟩, fs, ⟨[], [target], []⟩⟩
  else if ty == "RUN_CMD" then
    if isCommandBlocked target then
      ⟨⟨false, "Blocked: \"" ++ target ++ "\" matches a dangerous command pattern."⟩,
        fs, noLog⟩
    else
      match runner target with
      | .ok output =>
        ⟨⟨true, if output == "" then "(no output)" else output⟩, fs, ⟨[target], [], []⟩⟩
      | .err stderr stdout message =>
        ⟨⟨false, jsOr stderr (jsOr stdout message)⟩, fs, ⟨[target], [], []⟩⟩
  else if ty == "RUN_SCRIPT" then
    if !(isPathReadable cfg.readPaths target) then
      ⟨⟨false, "Access denied: \"" ++ target ++ "\" is outside allowed read paths."⟩,
        fs, ⟨[], [target], []⟩⟩
    else if (fs.files.lookup target).isNone then
      ⟨⟨false, "Script not found: " ++ target⟩, fs, ⟨[], [target], []⟩⟩
    else
      let fullCmd := composeScriptCmd target content
      if isCommandBlocked fullCmd then
        ⟨⟨false, "Blocked: script execution matches a dangerous command pattern."⟩,
          fs, ⟨[], [target], []⟩⟩
      else
        match runner fullCmd with
        | .ok output =>
          ⟨⟨true, if output == "" then "(no output)" else output⟩, fs,
            ⟨[fullCmd], [target], []⟩⟩
        | .err stderr stdout message =>
          ⟨⟨false, jsOr stderr (jsOr stdout message)⟩, fs, ⟨[fullCmd], [target], []⟩⟩
  else if ty == "WRITE_FILE" then
    if !(isPathWritable cfg.writePaths target) then
      ⟨⟨false, "Access denied: \"" ++ target ++ "\" is outside allowed write paths."⟩,
        fs, ⟨[], [], [target]⟩⟩
    else
      let bk := backupFile cfg fs target
      match content with
      | some c =>
        let msg := match bk.1 with
          | some b => "File written. Backup saved to: " ++ b
          | none => "File created at: " ++ target
        ⟨⟨true, msg⟩, { bk.2 with files := setFS bk.2.files target c }, ⟨[], [], [target]⟩⟩
      | none =>
        ⟨⟨false, "Error: data argument must be a string"⟩, bk.2, ⟨[], [], [target]⟩⟩
  else
    ⟨⟨false, "Unknown action type: " ++ ty⟩, fs, noLog⟩

-- ── Spec-modelled approval state machine ─────────────────────────────────────

/-- The per-action status lifecycle of the spec's ActionRegistry. -/
inductive ActionStatus where
  | pending
  | running
  | succeeded
  | failed
  | denied
deriving DecidableEq, Repr

/-- Modelled from the spec: the approval transition of the ActionRegistry.
The registry code (`act.status` handling in public/index.html) is not part of
src/; per the spec, `approve` atomically moves `pending → running` and only a
`pending` action may be approved. -/
def approveStep : ActionStatus → Option ActionStatus
  | .pending => some .running
  | _ => none

/-- Modelled from the spec: completion of a `running` action — a successful
execution moves `running → succeeded`; an executor-level failure (timeout,
non-zero exit, I/O failure) reverts the action to `pending` for retry. -/
def completeStep (execSuccess : Bool) : ActionStatus → ActionStatus
  | .running => if execSuccess then .succeeded else .pending
  | s => s

/-- Modelled from the spec: approving a pending action and running it through
the (source-embedded) executor, then applying the completion transition. -/
def approveAndRun (cfg : ExecCfg) (runner : String → ExecOutcome) (fs : FS)
    (st : ActionStatus) (ty target0 : String) (content : Option String) :
    Option (ActionStatus × ExecResult) :=
  (approveStep st).map (fun s1 =>
    let out := executeAction cfg runner fs ty target0 content
    (completeStep out.res.success s1, out.res))

-- ── Executor lemmas ──────────────────────────────────────────────────────────

theorem exec_runcmd_err (cfg : ExecCfg) (runner : String → ExecOutcome)
    (fs : FS) (cmd e1 e2 e3 : String) (hb : isCommandBlocked cmd = false)
    (hr : runner cmd = .err e1 e2 e3) :
    executeAction cfg runner fs "RUN_CMD" cmd none =
      ⟨⟨false, jsOr e1 (jsOr e2 e3)⟩, fs, ⟨[cmd], [], []⟩⟩ := by
  have hres : resolveTarget cfg.cwd "RUN_CMD" cmd = cmd := by
    simp [resolveTarget]
  simp [executeAction, hres, hb, hr]

theorem resolveTarget_runcmd (cwd target0 : String) :
    resolveTarget cwd "RUN_CMD" target0 = target0 := by
  simp [resolveTarget]

theorem exec_checked_char (cfg : ExecCfg) (runner : String → ExecOutcome)
    (fs : FS) (ty target0 : String) (content : Option String) :
    ((executeAction cfg runner fs ty target0 content).log.readChecked = [] ∨
     (executeAction cfg runner fs ty target0 content).log.readChecked =
       [resolveTarget cfg.cwd ty target0]) ∧
    ((executeAction cfg runner fs ty target0 content).log.writeChecked = [] ∨
     (executeAction cfg runner fs ty target0 content).log.writeChecked =
       [resolveTarget cfg.cwd ty target0]) := by
  by_cases h1 : ty = "READ_FILE"
  · subst h1
    cases hre : isPathReadable cfg.readPaths (resolveTarget cfg.cwd "READ_FILE" target0) with
    | false => simp [executeAction, hre]
    | true =>
      cases hlk : fs.files.lookup (resolveTarget cfg.cwd "READ_FILE" target0) with
      | none => simp [executeAction, hre, hlk]
      | some v => simp [executeAction, hre, hlk]
  have hb1 : (ty == "READ_FILE") = false := beq_eq_false_iff_ne.mpr h1
  by_cases h2 : ty = "RUN_CMD"
  · subst h2
    cases hbk : isCommandBlocked (resolveTarget cfg.cwd "RUN_CMD" target0) with
    | true => simp [executeAction, hbk, noLog]
    | false =>
      cases hrun : runner (resolveTarget cfg.cwd "RUN_CMD" target0) with
      | ok output => simp [executeAction, hbk, hrun]
      | err e1 e2 e3 => simp [executeAction, hbk, hrun]
  have hb2 : (ty == "RUN_CMD") = false := beq_eq_false_iff_ne.mpr h2
  by_cases h3 : ty = "RUN_SCRIPT"
  · subst h3
    cases hre : isPathReadable cfg.readPaths (resolveTarget cfg.cwd "RUN_SCRIPT" target0) with
    | false => simp [executeAction, hre]
    | true =>
      cases hlk : fs.files.lookup (resolveTarget cfg.cwd "RUN_SCRIPT" target0) with
      | none => simp [executeAction, hre, hlk]
      | some v =>
        cases hbk : isCommandBlocked
            (composeScriptCmd (resolveTarget cfg.cwd "RUN_SCRIPT" target0) content) with
        | true => simp [executeAction, hre, hlk, hbk]
        | false =>
          cases hrun : runner
              (composeScriptCmd (resolveTarget cfg.cwd "RUN_SCRIPT" target0) content) with
          | ok output => simp [executeAction, hre, hlk, hbk, hrun]
          | err e1 e2 e3 => simp [executeAction, hre, hlk, hbk, hrun]
  have hb3 : (ty == "RUN_SCRIPT") = false := beq_eq_false_iff_ne.mpr h3
  by_cases h4 : ty = "WRITE_FILE"
  · subst h4
    cases hwr : isPathWritable cfg.writePaths (resolveTarget cfg.cwd "WRITE_FILE" target0) with
    | false => simp [executeAction, hwr]
    | true =>
      cases content with
      | some c => simp [executeAction, hwr]
      | none => simp [executeAction, hwr]
  have hb4 : (ty == "WRITE_FILE") = false := beq_eq_false_iff_ne.mpr h4
  simp [executeAction, hb1, hb2, hb3, hb4, noLog]

theorem exec_checked_sub (cfg : ExecCfg) (runner : String → ExecOutcome)
    (fs : FS) (ty target0 : String) (content : Option String) (p : String) :
    (p ∈ (executeAction cfg runner fs ty target0 content).log.readChecked ∨
     p ∈ (executeAction cfg runner fs ty target0 content).log.writeChecked) →
    p = resolveTarget cfg.cwd ty target0 := by
  intro hp
  obtain ⟨hr, hw⟩ := exec_checked_char cfg runner fs ty target0 content
  rcases hp with hp | hp
  · rcases hr with h | h <;> rw [h] at hp <;> simp at hp
    exact hp
  · rcases hw with h | h <;> rw [h] at hp <;> simp at hp
    exact hp

-- ── Claims C2, C3, C5, C9, C10 ───────────────────────────────────────────────

/-- C9: for every RUN_CMD execution that is not blocked, when the spawned
command throws (non-zero exit or timeout), the executor returns a failure
result carrying `execErr.stderr || execErr.stdout || execErr.message` and no
exception escapes — `executeAction` is total and leaves the file system
untouched. -/
theorem claim_C9_runcmd_failure :
    ∀ (cfg : ExecCfg) (runner : String → ExecOutcome) (fs : FS)
      (cmd e1 e2 e3 : String),
      isCommandBlocked cmd = false →
      runner cmd = .err e1 e2 e3 →
      executeAction cfg runner fs "RUN_CMD" cmd none =
        ⟨⟨false, jsOr e1 (jsOr e2 e3)⟩, fs, ⟨[cmd], [], []⟩⟩ := by
  intro cfg runner fs cmd e1 e2 e3 hb hr
  exact exec_runcmd_err cfg runner fs cmd e1 e2 e3 hb hr

/-- Witness for C9 at a concrete failing command. -/
theorem claim_C9_witness :
    executeAction ⟨["/tmp/"], ["/tmp/"], "/cwd", "/b", "ts"⟩
        (fun _ => .err "boom" "" "msg") ⟨[], []⟩ "RUN_CMD" "ls" none =
      ⟨⟨false, "boom"⟩, ⟨[], []⟩, ⟨["ls"], [], []⟩⟩ := by
  have h := claim_C9_runcmd_failure ⟨["/tmp/"], ["/tmp/"], "/cwd", "/b", "ts"⟩
    (fun _ => .err "boom" "" "msg") ⟨[], []⟩ "ls" "boom" "" "msg"
    (by decide) rfl
  exact h.trans (by decide)

/-- C5: a failed RUN_CMD (non-zero exit or timeout, modelled as the thrown
`execErr` outcome) leaves the approved action with status `pending`, not
`failed`, so it can be approved again (`approveStep` accepts `pending` and
rejects `failed`). -/
theorem claim_C5_failed_runcmd_reverts_to_pending :
    ∀ (cfg : ExecCfg) (runner : String → ExecOutcome) (fs : FS)
      (cmd e1 e2 e3 : String),
      isCommandBlocked cmd = false →
      runner cmd = .err e1 e2 e3 →
      approveAndRun cfg runner fs .pending "RUN_CMD" cmd none =
        some (.pending, ⟨false, jsOr e1 (jsOr e2 e3)⟩) ∧
      approveStep .pending = some .running ∧
      approveStep .failed = none := by
  intro cfg runner fs cmd e1 e2 e3 hb hr
  have h := exec_runcmd_err cfg runner fs cmd e1 e2 e3 hb hr
  refine ⟨?_, rfl, rfl⟩
  simp [approveAndRun, approveStep, h, completeStep]

/-- Witness for C5 at a concrete failing command. -/
theorem claim_C5_witness :
    approveAndRun ⟨["/tmp/"], ["/tmp/"], "/cwd", "/b", "ts"⟩
        (fun _ => .err "exit 1" "" "msg") ⟨[], []⟩ .pending "RUN_CMD" "false" none =
      some (.pending, ⟨false, "exit 1"⟩) := by
  have h := claim_C5_failed_runcmd_reverts_to_pending
    ⟨["/tmp/"], ["/tmp/"], "/cwd", "/b", "ts"⟩ (fun _ => .err "exit 1" "" "msg")
    ⟨[], []⟩ "false" "exit 1" "" "msg" (by decide) rfl
  exact h.1.trans (by decide)

/-- C2: a WRITE_FILE on a writable target backs up an existing target's exact
pre-write content into the backup store under the timestamped, path-encoded
name before overwriting, and reports the backup in the success message; on a
fresh target no backup is made and the message reports creation. -/
theorem claim_C2_write_backup_semantics :
    ∀ (cfg : ExecCfg) (runner : String → ExecOutcome) (fs : FS) (target0 c : String),
      isPathWritable cfg.writePaths (resolveTarget cfg.cwd "WRITE_FILE" target0) = true →
      (∀ old, fs.files.lookup (resolveTarget cfg.cwd "WRITE_FILE" target0) = some old →
        executeAction cfg runner fs "WRITE_FILE" target0 (some c) =
          ⟨⟨true, "File written. Backup saved to: " ++
              joinPath cfg.backupDir
                (encodeBackupName (resolveTarget cfg.cwd "WRITE_FILE" target0) cfg.nowIso)⟩,
            ⟨setFS fs.files (resolveTarget cfg.cwd "WRITE_FILE" target0) c,
             fs.backups ++
               [(joinPath cfg.backupDir
                   (encodeBackupName (resolveTarget cfg.cwd "WRITE_FILE" target0) cfg.nowIso),
                 old)]⟩,
            ⟨[], [], [resolveTarget cfg.cwd "WRITE_FILE" target0]⟩⟩) ∧
      (fs.files.lookup (resolveTarget cfg.cwd "WRITE_FILE" target0) = none →
        executeAction cfg runner fs "WRITE_FILE" target0 (some c) =
          ⟨⟨true, "File created at: " ++ resolveTarget cfg.cwd "WRITE_FILE" target0⟩,
            ⟨setFS fs.files (resolveTarget cfg.cwd "WRITE_FILE" target0) c, fs.backups⟩,
            ⟨[], [], [resolveTarget cfg.cwd "WRITE_FILE" target0]⟩⟩) := by
  intro cfg runner fs target0 c hw
  constructor
  · intro old hlk
    simp [executeAction, hw, backupFile, hlk]
  · intro hlk
    simp [executeAction, hw, backupFile, hlk]

/-- Witness for C2: an overwrite makes a byte-identical backup; a fresh write
makes none. -/
theorem claim_C2_witness :
    executeAction ⟨["/tmp/"], ["/tmp/"], "/cwd", "/b", "2026-01-01T00:00:00.000Z"⟩
        (fun _ => .ok "") ⟨[("/tmp/a", "old")], []⟩ "WRITE_FILE" "/tmp/a" (some "new") =
      ⟨⟨true, "File written. Backup saved to: /b/__tmp__a.2026-01-01T00-00-00-000Z.bak"⟩,
        ⟨[("/tmp/a", "new")], [("/b/__tmp__a.2026-01-01T00-00-00-000Z.bak", "old")]⟩,
        ⟨[], [], ["/tmp/a"]⟩⟩ ∧
    executeAction ⟨["/tmp/"], ["/tmp/"], "/cwd", "/b", "2026-01-01T00:00:00.000Z"⟩
        (fun _ => .ok "") ⟨[], []⟩ "WRITE_FILE" "/tmp/b" (some "new") =
      ⟨⟨true, "File created at: /tmp/b"⟩, ⟨[("/tmp/b", "new")], []⟩,
        ⟨[], [], ["/tmp/b"]⟩⟩ := by
  constructor
  · have h := (claim_C2_write_backup_semantics
      ⟨["/tmp/"], ["/tmp/"], "/cwd", "/b", "2026-01-01T00:00:00.000Z"⟩
      (fun _ => .ok "") ⟨[("/tmp/a", "old")], []⟩ "/tmp/a" "new" (by decide)).1
      "old" (by decide)
    exact h.trans (by decide)
  · have h := (claim_C2_write_backup_semantics
      ⟨["/tmp/"], ["/tmp/"], "/cwd", "/b", "2026-01-01T00:00:00.000Z"⟩
      (fun _ => .ok "") ⟨[], []⟩ "/tmp/b" "new" (by decide)).2 (by decide)
    exact h.trans (by decide)

/-- C3: the RUN_SCRIPT blocklist check is applied to the fully composed
invocation (interpreter + quoted script path + appended arguments); if that
composed string is blocked, the result is the Blocked failure and nothing is
ever spawned — and anything that is spawned is exactly the composed string
and passed the blocklist. -/
theorem claim_C3_script_gate_composed :
    ∀ (cfg : ExecCfg) (runner : String → ExecOutcome) (fs : FS)
      (target0 : String) (content : Option String),
      (isCommandBlocked
          (composeScriptCmd (resolveTarget cfg.cwd "RUN_SCRIPT" target0) content) = true →
        (executeAction cfg runner fs "RUN_SCRIPT" target0 content).log.spawned = [] ∧
        (isPathReadable cfg.readPaths (resolveTarget cfg.cwd "RUN_SCRIPT" target0) = true →
         (fs.files.lookup (resolveTarget cfg.cwd "RUN_SCRIPT" target0)).isSome = true →
         (executeAction cfg runner fs "RUN_SCRIPT" target0 content).res =
           ⟨false, "Blocked: script execution matches a dangerous command pattern."⟩)) ∧
      (∀ sp ∈ (executeAction cfg runner fs "RUN_SCRIPT" target0 content).log.spawned,
        sp = composeScriptCmd (resolveTarget cfg.cwd "RUN_SCRIPT" target0) content ∧
        isCommandBlocked sp = false) := by
  intro cfg runner fs target0 content
  constructor
  · intro hb
    cases hre : isPathReadable cfg.readPaths (resolveTarget cfg.cwd "RUN_SCRIPT" target0) with
    | false =>
      constructor
      · simp [executeAction, hre]
      · intro h2 _
        exact absurd h2 (by simp)
    | true =>
      cases hlk : fs.files.lookup (resolveTarget cfg.cwd "RUN_SCRIPT" target0) with
      | none =>
        constructor
        · simp [executeAction, hre, hlk]
        · intro _ hsome
          exact absurd hsome (by simp)
      | some v =>
        constructor
        · simp [executeAction, hre, hlk, hb]
        · intro _ _
          simp [executeAction, hre, hlk, hb]
  · intro sp hsp
    cases hre : isPathReadable cfg.readPaths (resolveTarget cfg.cwd "RUN_SCRIPT" target0) with
    | false => simp [executeAction, hre] at hsp
    | true =>
      cases hlk : fs.files.lookup (resolveTarget cfg.cwd "RUN_SCRIPT" target0) with
      | none => simp [executeAction, hre, hlk] at hsp
      | some v =>
        cases hb : isCommandBlocked
            (composeScriptCmd (resolveTarget cfg.cwd "RUN_SCRIPT" target0) content) with
        | true => simp [executeAction, hre, hlk, hb] at hsp
        | false =>
          cases hrun : runner (composeScriptCmd (resolveTarget cfg.cwd "RUN_SCRIPT" target0) content) with
          | ok output =>
            simp [executeAction, hre, hlk, hb, hrun] at hsp
            exact ⟨hsp, hsp ▸ hb⟩
          | err e1 e2 e3 =>
            simp [executeAction, hre, hlk, hb, hrun] at hsp
            exact ⟨hsp, hsp ▸ hb⟩

/-- Witness for C3: the script path alone (and the bare interpreter line) pass
the blocklist, but the composed command with smuggled arguments is blocked,
so nothing is spawned and the Blocked failure is returned. -/
theorem claim_C3_witness :
    (executeAction ⟨["/tmp/"], ["/tmp/"], "/cwd", "/b", "ts"⟩ (fun _ => .ok "")
        ⟨[("/tmp/x.sh", "s")], []⟩ "RUN_SCRIPT" "/tmp/x.sh"
        (some "a; shutdown now")).log.spawned = [] ∧
    (executeAction ⟨["/tmp/"], ["/tmp/"], "/cwd", "/b", "ts"⟩ (fun _ => .ok "")
        ⟨[("/tmp/x.sh", "s")], []⟩ "RUN_SCRIPT" "/tmp/x.sh"
        (some "a; shutdown now")).res =
      ⟨false, "Blocked: script execution matches a dangerous command pattern."⟩ ∧
    isCommandBlocked "/tmp/x.sh" = false ∧
    isCommandBlocked "bash \"/tmp/x.sh\"" = false := by
  have h := claim_C3_script_gate_composed ⟨["/tmp/"], ["/tmp/"], "/cwd", "/b", "ts"⟩
    (fun _ => .ok "") ⟨[("/tmp/x.sh", "s")], []⟩ "/tmp/x.sh" (some "a; shutdown now")
  exact ⟨(h.1 (by decide)).1, (h.1 (by decide)).2 (by decide) (by decide),
    by decide, by decide⟩

/-- C10: targets of non-RUN_CMD actions that are non-empty and do not start
with '/' are resolved against the process working directory before any path
check — every path the safety gate is consulted about equals the resolved
target (absolute whenever the working directory is absolute) — while RUN_CMD
targets are never path-resolved: no path check happens and the spawned
command is the target string itself. -/
theorem claim_C10_relative_resolution :
    (∀ (cwd target0 : String), resolveTarget cwd "RUN_CMD" target0 = target0) ∧
    (∀ (cwd ty target0 : String), ty ≠ "RUN_CMD" → target0 ≠ "" →
      startsWithB target0 "/" = false →
      resolveTarget cwd ty target0 = joinPath cwd target0 ∧
      (startsWithB cwd "/" = true →
        startsWithB (resolveTarget cwd ty target0) "/" = true)) ∧
    (∀ (cfg : ExecCfg) (runner : String → ExecOutcome) (fs : FS)
      (ty target0 : String) (content : Option String),
      (∀ p ∈ (executeAction cfg runner fs ty target0 content).log.readChecked,
        p = resolveTarget cfg.cwd ty target0) ∧
      (∀ p ∈ (executeAction cfg runner fs ty target0 content).log.writeChecked,
        p = resolveTarget cfg.cwd ty target0)) ∧
    (∀ (cfg : ExecCfg) (runner : String → ExecOutcome) (fs : FS)
      (target0 : String) (content : Option String),
      (executeAction cfg runner fs "RUN_CMD" target0 content).log.readChecked = [] ∧
      (executeAction cfg runner fs "RUN_CMD" target0 content).log.writeChecked = [] ∧
      ∀ sp ∈ (executeAction cfg runner fs "RUN_CMD" target0 content).log.spawned,
        sp = target0) := by
  refine ⟨?_, ?_, ?_, ?_⟩
  · intro cwd target0
    exact resolveTarget_runcmd cwd target0
  · intro cwd ty target0 hty h0 h1
    have hcond : resolveTarget cwd ty target0 = joinPath cwd target0 := by
      simp [resolveTarget, bne_iff_ne, hty, h0, h1]
    refine ⟨hcond, ?_⟩
    intro hcwd
    have hcne : (cwd == "") = false := by
      cases hc : cwd == ""
      · rfl
      · have : cwd = "" := by
          exact eq_of_beq hc
        rw [this] at hcwd
        exact absurd hcwd (by decide)
    rw [hcond]
    unfold joinPath
    rw [hcne]
    unfold startsWithB at hcwd ⊢
    cases he : endsWithB cwd "/" <;>
      simp only [he, Bool.false_eq_true, if_false, if_true, String.data_append,
        List.append_assoc] <;>
      exact pfxB_mono_append _ hcwd
  · intro cfg runner fs ty target0 content
    constructor
    · intro p hp
      exact exec_checked_sub cfg runner fs ty target0 content p (Or.inl hp)
    · intro p hp
      exact exec_checked_sub cfg runner fs ty target0 content p (Or.inr hp)
  · intro cfg runner fs target0 content
    have hres := resolveTarget_runcmd cfg.cwd target0
    cases hb : isCommandBlocked target0 with
    | true =>
      refine ⟨?_, ?_, ?_⟩ <;> simp [executeAction, hres, hb, noLog]
    | false =>
      cases hrun : runner target0 with
      | ok output =>
        refine ⟨?_, ?_, ?_⟩ <;> simp [executeAction, hres, hb, hrun]
      | err e1 e2 e3 =>
        refine ⟨?_, ?_, ?_⟩ <;> simp [executeAction, hres, hb, hrun]

/-- Witness for C10: a relative READ_FILE target is checked at its resolved
absolute path; a RUN_CMD target is left untouched. -/
theorem claim_C10_witness :
    resolveTarget "/cwd" "READ_FILE" "rel.txt" = "/cwd/rel.txt" ∧
    (executeAction ⟨["/tmp/"], ["/tmp/"], "/cwd", "/b", "ts"⟩ (fun _ => .ok "")
        ⟨[], []⟩ "READ_FILE" "rel.txt" none).log.readChecked = ["/cwd/rel.txt"] ∧
    resolveTarget "/cwd" "RUN_CMD" "ls rel.txt" = "ls rel.txt" := by
  refine ⟨?_, ?_, claim_C10_relative_resolution.1 "/cwd" "ls rel.txt"⟩
  · exact (claim_C10_relative_resolution.2.1 "/cwd" "READ_FILE" "rel.txt"
      (by decide) (by decide) (by decide)).1.trans (by decide)
  · have h := (claim_C10_relative_resolution.2.2.1
      ⟨["/tmp/"], ["/tmp/"], "/cwd", "/b", "ts"⟩ (fun _ => .ok "") ⟨[], []⟩
      "READ_FILE" "rel.txt" none).1
    have h2 : ∀ p ∈ (executeAction ⟨["/tmp/"], ["/tmp/"], "/cwd", "/b", "ts"⟩
        (fun _ => .ok "") ⟨[], []⟩ "READ_FILE" "rel.txt" none).log.readChecked,
        p = "/cwd/rel.txt" := by
      intro p hp
      exact (h p hp).trans (by decide)
    decide

-- ── Claims C6 and C7 ─────────────────────────────────────────────────────────

/-- C6: the command gate rejects the exact string "rm -rf /" (isCommandBlocked
is true, i.e. isCommandAllowed is false) and accepts the exact string
"ls -la /tmp" (isCommandBlocked is false, i.e. isCommandAllowed is true). -/
theorem claim_C6_command_gate :
    isCommandBlocked "rm -rf /" = true ∧ isCommandBlocked "ls -la /tmp" = false := by
  decide

/-- C7: under the default read-path and write-path prefix lists,
"/etc/shadow" is readable but not writable, and "/tmp/x" is both readable and
writable. -/
theorem claim_C7_path_gate_defaults :
    isPathReadable DEFAULT_READ_PATHS "/etc/shadow" = true ∧
    isPathWritable DEFAULT_WRITE_PATHS "/etc/shadow" = false ∧
    isPathReadable DEFAULT_READ_PATHS "/tmp/x" = true ∧
    isPathWritable DEFAULT_WRITE_PATHS "/tmp/x" = true := by
  decide

end DoctorClaw
